import Mathlib

/-!
Verification of the `disjoint_set` union-find structure
(`src/disjoint_set/main.py`).

The Python class `DisjointSet` keeps its state in `self._data`, an
`ArgDefaultDict` mapping each known element to its parent; a missing key
is auto-vivified to itself on subscript access (`identity` factory).
We embed the state shallowly as an association list `DS α = List (α × α)`
in insertion order (Python dicts preserve insertion order), and each
method as an explicit state-passing function.  The recursive `find` is
embedded with explicit fuel, returning `none` when the fuel runs out —
on states satisfying the representation invariant we prove the fuel
`m.length + 1` always suffices, mirroring the fact that the Python
recursion terminates there.
-/

namespace DisjointSetSpec

variable {α : Type} [DecidableEq α]

/-- The internal state: the association list underlying `self._data`,
in insertion order. -/
abbrev DS (α : Type) := List (α × α)

/-- Lookup in the association list: the value of the first pair whose
key matches, mirroring dictionary lookup. -/
def lookupA : DS α → α → Option α
  | [], _ => none
  | (k, v) :: rest, x => if k = x then some v else lookupA rest x

/-- The keys currently present in the map: every element ever referenced. -/
def keys (m : DS α) : List α := m.map Prod.fst

/-- Membership test `__contains__`: `item in self._data`.
Modelled from the spec: `ArgDefaultDict` (from the absent
`disjoint_set/utils.py`) behaves as a dict whose membership test has
"no side effect, no auto-vivification". -/
def hasElem (m : DS α) (x : α) : Bool := (lookupA m x).isSome

/-- Truthiness `__bool__`: `bool(self._data)`, true iff some element was referenced. -/
def dsBool (m : DS α) : Bool := !m.isEmpty

/-- The method `__contains__` as a state transformer, pairing the unchanged state
with the answer.  Modelled from the spec: the membership test of
`ArgDefaultDict` (absent `disjoint_set/utils.py`) has "no side effect,
no auto-vivification", so the method returns the map untouched. -/
def containsOp (m : DS α) (x : α) : DS α × Bool := (m, hasElem m x)

/-- Reading `self._data[x]`: vivifies a missing key to itself
(appending at the end, as dict insertion does) and returns the value.
Modelled from the spec: `ArgDefaultDict(identity)` inserts
`identity(x) = x` for a missing key `x` on subscript access. -/
def getViv (m : DS α) (x : α) : DS α × α :=
  match lookupA m x with
  | some v => (m, v)
  | none => (m ++ [(x, x)], x)

/-- Writing `self._data[k] = v`: overwrite the value at the first occurrence of
`k`, or append `(k, v)` if `k` is absent. -/
def setKey : DS α → α → α → DS α
  | [], k, v => [(k, v)]
  | (k', v') :: rest, k, v =>
      if k' = k then (k', v) :: rest else (k', v') :: setKey rest k v

/-- The parent of `x`: its value in the map, or `x` itself when absent
(which is exactly the value vivification would give it). -/
def parentOf (m : DS α) (x : α) : α := (lookupA m x).getD x

/-- The recursive `find`, fuel-bounded.  Mirrors

```python
def find(self, x):
    if x != self._data[x]:
        self._data[x] = self.find(self._data[x])
    return self._data[x]
```

returning `none` when the recursion exceeds the fuel. -/
def findAux : Nat → DS α → α → Option (DS α × α)
  | 0, _, _ => none
  | fuel + 1, m, x =>
      let mp := getViv m x
      if x = mp.2 then some (mp.1, mp.2)
      else
        match findAux fuel mp.1 mp.2 with
        | none => none
        | some (m2, r) => some (setKey m2 x r, r)

/-- The method `find(x)`: run `findAux` with fuel `m.length + 1`, which we prove
sufficient on every state satisfying the invariant. -/
def find (m : DS α) (x : α) : Option (DS α × α) := findAux (m.length + 1) m x

/-- The method `union(x, y)`: `parent_x, parent_y = self.find(x), self.find(y)`
(left to right), then attach `parent_x` under `parent_y` if distinct. -/
def union (m : DS α) (x y : α) : Option (DS α) :=
  match find m x with
  | none => none
  | some (m1, rx) =>
      match find m1 y with
      | none => none
      | some (m2, ry) => some (if rx = ry then m2 else setKey m2 rx ry)

/-- The method `connected(x, y)`: `self.find(x) == self.find(y)` (left to right). -/
def connected (m : DS α) (x y : α) : Option (DS α × Bool) :=
  match find m x with
  | none => none
  | some (m1, rx) =>
      match find m1 y with
      | none => none
      | some (m2, ry) => some (m2, decide (rx = ry))

/-- Run of `__iter__` over a list of keys: yield `(key, find(key))`. -/
def iterAux : DS α → List α → Option (DS α × List (α × α))
  | m, [] => some (m, [])
  | m, k :: ks =>
      match find m k with
      | none => none
      | some (m1, r) =>
          match iterAux m1 ks with
          | none => none
          | some (m2, rest) => some (m2, (k, r) :: rest)

/-- The generator `__iter__`: one `(element, root)` pair per key of the map. -/
def iterate (m : DS α) : Option (DS α × List (α × α)) := iterAux m (keys m)

/-- One update `element_classes[r].add(e)` on a `defaultdict(set)`: append `e` to
the class tagged `r`, creating the class at the end on first use. -/
def addToClass : List (α × List α) → α → α → List (α × List α)
  | [], r, e => [(r, [e])]
  | (r', es) :: rest, r, e =>
      if r' = r then (r', es ++ [e]) :: rest else (r', es) :: addToClass rest r e

/-- The grouping loop of `itersets`: for each element, add it to the
class of its root. -/
def itersetsAux : DS α → List α → List (α × List α) → Option (DS α × List (α × List α))
  | m, [], cs => some (m, cs)
  | m, e :: es, cs =>
      match find m e with
      | none => none
      | some (m1, r) => itersetsAux m1 es (addToClass cs r e)

/-- The generator `itersets()`: group the keys by root and yield the classes. -/
def itersets (m : DS α) : Option (DS α × List (List α)) :=
  match itersetsAux m (keys m) [] with
  | none => none
  | some (m1, cs) => some (m1, cs.map Prod.snd)

/-- Walk parent links from `x` (fuel-bounded): returns the list of
strictly-non-root nodes visited, in order, together with the root
reached; `none` when the fuel runs out before a root. -/
def trace : Nat → DS α → α → Option (List α × α)
  | 0, _, _ => none
  | fuel + 1, m, x =>
      if parentOf m x = x then some ([], x)
      else
        match trace fuel m (parentOf m x) with
        | none => none
        | some (l, r) => some (x :: l, r)

/-- The root of `x` in state `m` (meaningful on states satisfying the
invariant, where the walk always terminates within `m.length + 1`). -/
def rootOf (m : DS α) (x : α) : α :=
  match trace (m.length + 1) m x with
  | none => x
  | some (_, r) => r

/-- The representation invariant of the structure: keys are unique,
every stored parent is itself a key, and following parent links from
any key terminates at a root (no cycles other than root self-loops). -/
def Inv (m : DS α) : Prop :=
  (keys m).Nodup ∧ (∀ p ∈ m, p.2 ∈ keys m) ∧
    (∀ k ∈ keys m, (trace (m.length + 1) m k).isSome)

instance (m : DS α) : Decidable (Inv m) := by
  unfold Inv; exact inferInstance

/-- Overwrite the parents of all elements of `l` to `r`, used to state
what path compression does to the map. -/
def setAll (m : DS α) (r : α) : List α → DS α
  | [] => m
  | z :: zs => setKey (setAll m r zs) z r

/-- The public mutating operations, for stating temporal properties
over arbitrary subsequent call sequences. -/
inductive Op (α : Type) where
  | findOp (x : α) : Op α
  | unionOp (x y : α) : Op α
  | connectedOp (x y : α) : Op α

/-- Run one operation for its state effect. -/
def runOp (m : DS α) : Op α → Option (DS α)
  | Op.findOp x =>
      match find m x with
      | none => none
      | some (m1, _) => some m1
  | Op.unionOp x y => union m x y
  | Op.connectedOp x y =>
      match connected m x y with
      | none => none
      | some (m1, _) => some m1

/-- Run a sequence of operations left to right. -/
def runOps : DS α → List (Op α) → Option (DS α)
  | m, [] => some m
  | m, o :: os =>
      match runOp m o with
      | none => none
      | some m1 => runOps m1 os

/-! ### Basic lemmas on the map primitives -/

theorem mem_keys_cons {k v x : α} {rest : DS α} :
    x ∈ keys ((k, v) :: rest) ↔ x = k ∨ x ∈ keys rest := by
  simp [keys]

theorem lookupA_isSome_iff (m : DS α) (x : α) :
    (lookupA m x).isSome = true ↔ x ∈ keys m := by
  induction m with
  | nil => simp [lookupA, keys]
  | cons p rest ih =>
      obtain ⟨k, v⟩ := p
      by_cases hk : k = x
      · subst hk; simp [lookupA, mem_keys_cons]
      · have h1 : lookupA ((k, v) :: rest) x = lookupA rest x := by
          simp [lookupA, hk]
        rw [h1, ih, mem_keys_cons, or_iff_right (fun h => hk h.symm)]

theorem lookupA_eq_none_iff (m : DS α) (x : α) :
    lookupA m x = none ↔ x ∉ keys m := by
  rw [← lookupA_isSome_iff]
  cases h : lookupA m x <;> simp [h]

theorem lookupA_append_left {m1 : DS α} (m2 : DS α) {x : α} {v : α}
    (h : lookupA m1 x = some v) : lookupA (m1 ++ m2) x = some v := by
  induction m1 with
  | nil => simp [lookupA] at h
  | cons p rest ih =>
      obtain ⟨k, w⟩ := p
      by_cases hk : k = x
      · subst hk; simp [lookupA] at h ⊢; exact h
      · simp [lookupA, hk] at h ⊢; exact ih h

theorem lookupA_append_right {m1 : DS α} (m2 : DS α) {x : α}
    (h : lookupA m1 x = none) : lookupA (m1 ++ m2) x = lookupA m2 x := by
  induction m1 with
  | nil => simp
  | cons p rest ih =>
      obtain ⟨k, w⟩ := p
      by_cases hk : k = x
      · subst hk; simp [lookupA] at h
      · simp [lookupA, hk] at h ⊢; exact ih h

theorem keys_append (m1 m2 : DS α) : keys (m1 ++ m2) = keys m1 ++ keys m2 := by
  simp [keys]

theorem keys_setKey {m : DS α} {k : α} (v : α) (hk : k ∈ keys m) :
    keys (setKey m k v) = keys m := by
  induction m with
  | nil => simp [keys] at hk
  | cons p rest ih =>
      obtain ⟨k', v'⟩ := p
      by_cases h : k' = k
      · simp [setKey, h, keys]
      · rcases mem_keys_cons.mp hk with hk1 | hk1
        · exact absurd hk1.symm h
        · have ih1 := ih hk1
          simp only [keys] at ih1
          simp [setKey, h, keys, ih1]

theorem length_setKey {m : DS α} {k : α} (v : α) (hk : k ∈ keys m) :
    (setKey m k v).length = m.length := by
  have h1 : (keys (setKey m k v)).length = (keys m).length := by
    rw [keys_setKey v hk]
  simpa [keys] using h1

theorem lookupA_setKey_self {m : DS α} {k : α} (v : α) (hk : k ∈ keys m) :
    lookupA (setKey m k v) k = some v := by
  induction m with
  | nil => simp [keys] at hk
  | cons p rest ih =>
      obtain ⟨k', v'⟩ := p
      by_cases h : k' = k
      · simp [setKey, h, lookupA]
      · rcases mem_keys_cons.mp hk with hk1 | hk1
        · exact absurd hk1.symm h
        · simp [setKey, h, lookupA, ih hk1]

theorem lookupA_setKey_ne {m : DS α} {k x : α} (v : α) (hx : x ≠ k) :
    lookupA (setKey m k v) x = lookupA m x := by
  induction m with
  | nil => simp [setKey, lookupA, Ne.symm hx]
  | cons p rest ih =>
      obtain ⟨k', v'⟩ := p
      by_cases h : k' = k
      · subst h
        simp [setKey, lookupA, Ne.symm hx]
      · by_cases h2 : k' = x
        · subst h2; simp [setKey, h, lookupA]
        · simp [setKey, h, lookupA, h2, ih]

theorem parentOf_setKey_self {m : DS α} {k : α} (v : α) (hk : k ∈ keys m) :
    parentOf (setKey m k v) k = v := by
  simp [parentOf, lookupA_setKey_self v hk]

theorem parentOf_setKey_ne {m : DS α} {k x : α} (v : α) (hx : x ≠ k) :
    parentOf (setKey m k v) x = parentOf m x := by
  simp [parentOf, lookupA_setKey_ne v hx]

theorem parentOf_not_mem {m : DS α} {x : α} (hx : x ∉ keys m) :
    parentOf m x = x := by
  have h : lookupA m x = none := (lookupA_eq_none_iff m x).mpr hx
  simp [parentOf, h]

theorem parentOf_viv {m : DS α} {x : α} (hx : x ∉ keys m) (z : α) :
    parentOf (m ++ [(x, x)]) z = parentOf m z := by
  by_cases hz : z ∈ keys m
  · obtain ⟨v, hv⟩ := Option.isSome_iff_exists.mp ((lookupA_isSome_iff m z).mpr hz)
    simp [parentOf, hv, lookupA_append_left _ hv]
  · have h : lookupA m z = none := (lookupA_eq_none_iff m z).mpr hz
    by_cases hzx : z = x
    · subst hzx
      simp [parentOf, lookupA_append_right _ h, h, lookupA]
    · simp [parentOf, lookupA_append_right _ h, h, lookupA, Ne.symm hzx]

theorem getViv_mem {m : DS α} {x : α} (hx : x ∈ keys m) :
    getViv m x = (m, parentOf m x) := by
  obtain ⟨v, hv⟩ := Option.isSome_iff_exists.mp ((lookupA_isSome_iff m x).mpr hx)
  simp [getViv, hv, parentOf]

theorem getViv_new {m : DS α} {x : α} (hx : x ∉ keys m) :
    getViv m x = (m ++ [(x, x)], x) := by
  have h : lookupA m x = none := (lookupA_eq_none_iff m x).mpr hx
  simp [getViv, h]

/-! ### Lemmas on the parent-walk `trace` -/

theorem trace_root {n : Nat} {m : DS α} {x : α} (hp : parentOf m x = x) :
    trace (n + 1) m x = some ([], x) := by
  rw [trace]; simp [hp]

theorem trace_step {n : Nat} {m : DS α} {x : α} (hp : parentOf m x ≠ x)
    {l : List α} {r : α} (h : trace n m (parentOf m x) = some (l, r)) :
    trace (n + 1) m x = some (x :: l, r) := by
  rw [trace, if_neg hp, h]

theorem trace_mono {n n2 : Nat} {m : DS α} {x : α} {p : List α × α}
    (h : trace n m x = some p) (hn : n ≤ n2) : trace n2 m x = some p := by
  induction n generalizing x n2 p with
  | zero => simp [trace] at h
  | succ k ih =>
      obtain ⟨n3, rfl⟩ : ∃ n3, n2 = n3 + 1 := ⟨n2 - 1, by omega⟩
      rw [trace] at h ⊢
      by_cases hp : parentOf m x = x
      · simpa [hp] using h
      · rw [if_neg hp] at h ⊢
        cases htr : trace k m (parentOf m x) with
        | none => rw [htr] at h; simp at h
        | some q =>
            rw [htr] at h
            rw [ih htr (by omega)]
            exact h

theorem trace_ext {m1 m2 : DS α} (hpar : ∀ z, parentOf m1 z = parentOf m2 z)
    (n : Nat) (x : α) : trace n m1 x = trace n m2 x := by
  induction n generalizing x with
  | zero => simp [trace]
  | succ k ih =>
      rw [trace, trace, hpar x]
      by_cases hp : parentOf m2 x = x
      · simp [hp]
      · rw [if_neg hp, if_neg hp, ih (parentOf m2 x)]

theorem trace_root_parent {n : Nat} {m : DS α} {x : α} {l : List α} {r : α}
    (h : trace n m x = some (l, r)) : parentOf m r = r := by
  induction n generalizing x l r with
  | zero => simp [trace] at h
  | succ k ih =>
      rw [trace] at h
      by_cases hp : parentOf m x = x
      · simp [hp] at h
        obtain ⟨hl, hr⟩ := h
        subst hr; exact hp
      · rw [if_neg hp] at h
        cases htr : trace k m (parentOf m x) with
        | none => rw [htr] at h; simp at h
        | some q =>
            obtain ⟨l2, r2⟩ := q
            rw [htr] at h
            simp at h
            obtain ⟨hl, hr⟩ := h
            subst hr
            exact ih htr

theorem trace_mem_drop {n : Nat} {m : DS α} {x z : α} {l : List α} {r : α}
    (h : trace n m x = some (l, r)) (hz : z ∈ l) :
    ∃ k, k < l.length ∧ trace n m z = some (l.drop k, r) := by
  induction n generalizing x l r with
  | zero => simp [trace] at h
  | succ k ih =>
      rw [trace] at h
      by_cases hp : parentOf m x = x
      · simp [hp] at h
        obtain ⟨hl, hr⟩ := h
        subst hl
        simp at hz
      · rw [if_neg hp] at h
        cases htr : trace k m (parentOf m x) with
        | none => rw [htr] at h; simp at h
        | some q =>
            obtain ⟨l2, r2⟩ := q
            rw [htr] at h
            simp at h
            obtain ⟨hl, hr⟩ := h
            subst hr
            subst hl
            rcases List.mem_cons.mp hz with hzx | hzl
            · subst hzx
              refine ⟨0, by simp, ?_⟩
              rw [List.drop_zero]
              exact trace_step hp htr
            · obtain ⟨k2, hk2, htr2⟩ := ih htr hzl
              refine ⟨k2 + 1, by simpa using hk2, ?_⟩
              simpa using trace_mono htr2 (by omega)

theorem trace_nodup {n : Nat} {m : DS α} {x : α} {l : List α} {r : α}
    (h : trace n m x = some (l, r)) : l.Nodup := by
  induction n generalizing x l r with
  | zero => simp [trace] at h
  | succ k ih =>
      rw [trace] at h
      by_cases hp : parentOf m x = x
      · simp [hp] at h
        obtain ⟨hl, hr⟩ := h
        subst hl; exact List.nodup_nil
      · rw [if_neg hp] at h
        cases htr : trace k m (parentOf m x) with
        | none => rw [htr] at h; simp at h
        | some q =>
            obtain ⟨l2, r2⟩ := q
            rw [htr] at h
            simp at h
            obtain ⟨hl, hr⟩ := h
            subst hr
            subst hl
            rw [List.nodup_cons]
            refine ⟨?_, ih htr⟩
            intro hx
            obtain ⟨k2, hk2, htr2⟩ := trace_mem_drop htr hx
            have h1 := trace_mono htr2 (Nat.le_succ k)
            have h2 := trace_step hp htr
            rw [h1] at h2
            simp at h2
            have h3 := congrArg List.length h2
            simp [List.length_drop] at h3
            omega

theorem trace_keys {n : Nat} {m : DS α} {x : α} {l : List α} {r : α}
    (h : trace n m x = some (l, r)) : ∀ z ∈ l, z ∈ keys m := by
  induction n generalizing x l r with
  | zero => simp [trace] at h
  | succ k ih =>
      rw [trace] at h
      by_cases hp : parentOf m x = x
      · simp [hp] at h
        obtain ⟨hl, hr⟩ := h
        subst hl; simp
      · rw [if_neg hp] at h
        cases htr : trace k m (parentOf m x) with
        | none => rw [htr] at h; simp at h
        | some q =>
            obtain ⟨l2, r2⟩ := q
            rw [htr] at h
            simp at h
            obtain ⟨hl, hr⟩ := h
            subst hl
            intro z hz
            rcases List.mem_cons.mp hz with hzx | hzl
            · subst hzx
              by_contra hmem
              exact hp (parentOf_not_mem hmem)
            · exact ih htr z hzl

theorem trace_shrink {n : Nat} {m : DS α} {x : α} {l : List α} {r : α}
    (h : trace n m x = some (l, r)) : trace (l.length + 1) m x = some (l, r) := by
  induction n generalizing x l r with
  | zero => simp [trace] at h
  | succ k ih =>
      rw [trace] at h
      by_cases hp : parentOf m x = x
      · simp [hp] at h
        obtain ⟨hl, hr⟩ := h
        subst hl; subst hr
        exact trace_root hp
      · rw [if_neg hp] at h
        cases htr : trace k m (parentOf m x) with
        | none => rw [htr] at h; simp at h
        | some q =>
            obtain ⟨l2, r2⟩ := q
            rw [htr] at h
            simp at h
            obtain ⟨hl, hr⟩ := h
            subst hr
            subst hl
            exact trace_step hp (ih htr)

theorem trace_len_le {n : Nat} {m : DS α} {x : α} {l : List α} {r : α}
    (hnd : (keys m).Nodup) (h : trace n m x = some (l, r)) :
    l.length ≤ m.length := by
  have hsub := trace_keys h
  have hnodup := trace_nodup h
  have c1 : l.toFinset.card = l.length := List.toFinset_card_of_nodup hnodup
  have c2 : l.toFinset ⊆ (keys m).toFinset := by
    intro a ha
    exact List.mem_toFinset.mpr (hsub a (List.mem_toFinset.mp ha))
  have c3 := Finset.card_le_card c2
  have c4 : (keys m).toFinset.card ≤ (keys m).length := List.toFinset_card_le (keys m)
  have c5 : (keys m).length = m.length := by simp [keys]
  omega

theorem trace_bound {n : Nat} {m : DS α} {x : α} {l : List α} {r : α}
    (hnd : (keys m).Nodup) (h : trace n m x = some (l, r)) :
    trace (m.length + 1) m x = some (l, r) := by
  have hlen := trace_len_le hnd h
  exact trace_mono (trace_shrink h) (by omega)

theorem trace_total {m : DS α} (hinv : Inv m) (x : α) :
    (trace (m.length + 1) m x).isSome = true := by
  by_cases hx : x ∈ keys m
  · exact hinv.2.2 x hx
  · rw [trace_root (parentOf_not_mem hx)]
    rfl

theorem rootOf_eq_of_trace {n : Nat} {m : DS α} {x : α} {l : List α} {r : α}
    (hnd : (keys m).Nodup) (h : trace n m x = some (l, r)) : rootOf m x = r := by
  rw [rootOf, trace_bound hnd h]

theorem rootOf_trace {m : DS α} (hinv : Inv m) (x : α) :
    ∃ l, trace (m.length + 1) m x = some (l, rootOf m x) := by
  obtain ⟨⟨l, r⟩, hp⟩ := Option.isSome_iff_exists.mp (trace_total hinv x)
  exact ⟨l, by rw [hp, rootOf_eq_of_trace hinv.1 hp]⟩

theorem rootOf_not_mem {m : DS α} {x : α} (hx : x ∉ keys m) : rootOf m x = x := by
  rw [rootOf, trace_root (parentOf_not_mem hx)]

theorem parentOf_rootOf {m : DS α} (hinv : Inv m) (x : α) :
    parentOf m (rootOf m x) = rootOf m x := by
  obtain ⟨l, hp⟩ := rootOf_trace hinv x
  exact trace_root_parent hp

theorem mem_of_lookupA {m : DS α} {k v : α} (h : lookupA m k = some v) :
    (k, v) ∈ m := by
  induction m with
  | nil => simp [lookupA] at h
  | cons p rest ih =>
      obtain ⟨k', v'⟩ := p
      by_cases hk : k' = k
      · subst hk
        simp [lookupA] at h
        simp [h]
      · simp [lookupA, hk] at h
        simp [ih h]

theorem mem_iff_lookupA {m : DS α} (hnd : (keys m).Nodup) {k v : α} :
    (k, v) ∈ m ↔ lookupA m k = some v := by
  constructor
  · intro h
    induction m with
    | nil => simp at h
    | cons p rest ih =>
        obtain ⟨k', v'⟩ := p
        rcases List.mem_cons.mp h with h1 | h1
        · injection h1 with hk hv
          subst hk; subst hv
          simp [lookupA]
        · have hnd2 : (keys rest).Nodup := (List.nodup_cons.mp hnd).2
          have hk' : k' ≠ k := by
            intro he
            subst he
            exact (List.nodup_cons.mp hnd).1
              (by simpa [keys] using List.mem_map_of_mem Prod.fst h1)
          simp [lookupA, hk', ih hnd2 h1]
  · exact mem_of_lookupA

theorem parentOf_mem {m : DS α} {k : α} (hk : k ∈ keys m) :
    (k, parentOf m k) ∈ m := by
  obtain ⟨v, hv⟩ := Option.isSome_iff_exists.mp ((lookupA_isSome_iff m k).mpr hk)
  have := mem_of_lookupA hv
  simpa [parentOf, hv] using this

theorem trace_det {n1 n2 : Nat} {m : DS α} {x : α} {p q : List α × α}
    (h1 : trace n1 m x = some p) (h2 : trace n2 m x = some q) : p = q := by
  rcases le_total n1 n2 with h | h
  · have h3 := trace_mono h1 h
    rw [h3] at h2
    exact Option.some_inj.mp h2
  · have h3 := trace_mono h2 h
    rw [h3] at h1
    exact (Option.some_inj.mp h1).symm

theorem trace_mem_not_root {n : Nat} {m : DS α} {x w : α} {l : List α} {r : α}
    (h : trace n m x = some (l, r)) (hw : w ∈ l) : parentOf m w ≠ w := by
  obtain ⟨k, hk, htr⟩ := trace_mem_drop h hw
  intro hp
  obtain ⟨n2, rfl⟩ : ∃ n2, n = n2 + 1 := by
    cases n with
    | zero => simp [trace] at htr
    | succ n2 => exact ⟨n2, rfl⟩
  rw [trace_root hp] at htr
  have h2 := Option.some_inj.mp htr
  have h3 := congrArg (fun q => (Prod.fst q).length) h2
  simp [List.length_drop] at h3
  omega

theorem trace_root_mem {n : Nat} {m : DS α} (hcl : ∀ p ∈ m, p.2 ∈ keys m)
    {x : α} {l : List α} {r : α} (h : trace n m x = some (l, r))
    (hx : x ∈ keys m) : r ∈ keys m := by
  induction n generalizing x l r with
  | zero => simp [trace] at h
  | succ k ih =>
      rw [trace] at h
      by_cases hp : parentOf m x = x
      · simp [hp] at h
        obtain ⟨hl, hr⟩ := h
        subst hr; exact hx
      · rw [if_neg hp] at h
        cases htr : trace k m (parentOf m x) with
        | none => rw [htr] at h; simp at h
        | some q =>
            obtain ⟨l2, r2⟩ := q
            rw [htr] at h
            simp at h
            obtain ⟨hl, hr⟩ := h
            subst hr
            have hpx : parentOf m x ∈ keys m := hcl _ (parentOf_mem hx)
            exact ih htr hpx

theorem rootOf_root {m : DS α} {z : α} (hp : parentOf m z = z) : rootOf m z = z := by
  rw [rootOf, trace_root hp]

theorem rootOf_idem {m : DS α} (hinv : Inv m) (x : α) :
    rootOf m (rootOf m x) = rootOf m x :=
  rootOf_root (parentOf_rootOf hinv x)

theorem rootOf_mem {m : DS α} (hinv : Inv m) {x : α} (hx : x ∈ keys m) :
    rootOf m x ∈ keys m := by
  obtain ⟨l, hp⟩ := rootOf_trace hinv x
  exact trace_root_mem hinv.2.1 hp hx

/-! ### Path compression: `setAll` -/

theorem keys_setAll {m : DS α} {r : α} {l : List α} (hl : ∀ z ∈ l, z ∈ keys m) :
    keys (setAll m r l) = keys m := by
  induction l with
  | nil => rfl
  | cons w zs ih =>
      have ih1 := ih (fun z hz => hl z (List.mem_cons_of_mem w hz))
      have hw : w ∈ keys (setAll m r zs) := by
        rw [ih1]; exact hl w (List.mem_cons_self w zs)
      rw [setAll, keys_setKey r hw, ih1]

theorem parentOf_setAll {m : DS α} {r : α} {l : List α}
    (hl : ∀ z ∈ l, z ∈ keys m) (z : α) :
    parentOf (setAll m r l) z = if z ∈ l then r else parentOf m z := by
  induction l with
  | nil => simp [setAll]
  | cons w zs ih =>
      have ih1 := ih (fun a ha => hl a (List.mem_cons_of_mem w ha))
      rw [setAll]
      by_cases hz : z = w
      · subst hz
        have hw : z ∈ keys (setAll m r zs) := by
          rw [keys_setAll (fun a ha => hl a (List.mem_cons_of_mem z ha))]
          exact hl z (List.mem_cons_self z zs)
        rw [parentOf_setKey_self r hw]
        simp
      · rw [parentOf_setKey_ne r hz, ih1]
        by_cases hzs : z ∈ zs
        · simp [hzs, List.mem_cons, hz]
        · simp [hzs, List.mem_cons, hz]

theorem length_setAll {m : DS α} {r : α} {l : List α}
    (hl : ∀ z ∈ l, z ∈ keys m) : (setAll m r l).length = m.length := by
  have h := congrArg List.length (keys_setAll (r := r) hl)
  simpa [keys] using h

theorem trace_nil_elim {n : Nat} {m : DS α} {x r : α}
    (h : trace n m x = some ([], r)) : r = x ∧ parentOf m x = x := by
  cases n with
  | zero => simp [trace] at h
  | succ k =>
      rw [trace] at h
      by_cases hp : parentOf m x = x
      · simp [hp] at h
        exact ⟨h.symm, hp⟩
      · rw [if_neg hp] at h
        cases htr : trace k m (parentOf m x) with
        | none => rw [htr] at h; simp at h
        | some q =>
            obtain ⟨l3, r3⟩ := q
            rw [htr] at h
            simp at h

theorem trace_cons_elim {n : Nat} {m : DS α} {x w : α} {l2 : List α} {r : α}
    (h : trace n m x = some (w :: l2, r)) :
    w = x ∧ parentOf m x ≠ x ∧
      ∃ k, n = k + 1 ∧ trace k m (parentOf m x) = some (l2, r) := by
  cases n with
  | zero => simp [trace] at h
  | succ k =>
      rw [trace] at h
      by_cases hp : parentOf m x = x
      · simp [hp] at h
      · rw [if_neg hp] at h
        cases htr : trace k m (parentOf m x) with
        | none => rw [htr] at h; simp at h
        | some q =>
            obtain ⟨l3, r3⟩ := q
            rw [htr] at h
            simp at h
            obtain ⟨⟨hx3, hl3⟩, hr3⟩ := h
            subst hl3
            subst hr3
            exact ⟨hx3.symm, hp, k, rfl, htr⟩

/-- Path compression preserves every walk's endpoint: in
`setAll m r l` (where `l` is a walk in `m` ending at root `r`), the walk
from any node reaches the same root as in `m`, with fuel at most one
more. -/
theorem setAll_trace {n : Nat} {m : DS α} {x : α} {l : List α} {r : α}
    (h : trace n m x = some (l, r)) {n2 : Nat} {z : α} {l2 : List α} {r2 : α}
    (h2 : trace n2 m z = some (l2, r2)) :
    ∃ l3, trace (n2 + 1) (setAll m r l) z = some (l3, r2) := by
  have hkeys := trace_keys h
  have hpar := parentOf_setAll (m := m) (r := r) hkeys
  have hrootpar : parentOf m r = r := trace_root_parent h
  have hrnl : r ∉ l := fun hmem => trace_mem_not_root h hmem hrootpar
  induction n2 generalizing z l2 r2 with
  | zero => simp [trace] at h2
  | succ k ih =>
      rw [trace] at h2
      by_cases hp : parentOf m z = z
      · simp [hp] at h2
        obtain ⟨hl2, hr2⟩ := h2
        subst hr2
        have hznl : z ∉ l := fun hmem => trace_mem_not_root h hmem hp
        have hpz : parentOf (setAll m r l) z = z := by
          rw [hpar z, if_neg hznl]; exact hp
        exact ⟨[], trace_root hpz⟩
      · rw [if_neg hp] at h2
        cases htr : trace k m (parentOf m z) with
        | none => rw [htr] at h2; simp at h2
        | some q =>
            obtain ⟨l4, r4⟩ := q
            rw [htr] at h2
            simp at h2
            obtain ⟨hl2, hr4⟩ := h2
            subst hr4
            by_cases hz : z ∈ l
            · obtain ⟨k2, hk2, htr2⟩ := trace_mem_drop h hz
              have hdet := trace_det (trace_step hp htr) htr2
              have hr2r : r4 = r := by
                have h5 := congrArg Prod.snd hdet
                simpa using h5
              rw [hr2r]
              have hzr : z ≠ r := fun he => hrnl (he ▸ hz)
              have hpz : parentOf (setAll m r l) z = r := by
                rw [hpar z, if_pos hz]
              have hpr : parentOf (setAll m r l) r = r := by
                rw [hpar r, if_neg hrnl]; exact hrootpar
              refine ⟨[z], ?_⟩
              have hstep : parentOf (setAll m r l) z ≠ z := by
                rw [hpz]; exact fun he => hzr he.symm
              exact trace_step hstep (by rw [hpz]; exact trace_root hpr)
            · have hpz : parentOf (setAll m r l) z = parentOf m z := by
                rw [hpar z, if_neg hz]
              obtain ⟨l5, htr5⟩ := ih htr
              refine ⟨z :: l5, ?_⟩
              have hstep : parentOf (setAll m r l) z ≠ z := by
                rw [hpz]; exact hp
              exact trace_step hstep (by rw [hpz]; exact htr5)

/-- Path compression preserves the representation invariant. -/
theorem setAll_inv {n : Nat} {m : DS α} (hinv : Inv m) {x : α} {l : List α}
    {r : α} (h : trace n m x = some (l, r)) : Inv (setAll m r l) := by
  have hkeys := trace_keys h
  have hkeq : keys (setAll m r l) = keys m := keys_setAll hkeys
  have hnd3 : (keys (setAll m r l)).Nodup := by rw [hkeq]; exact hinv.1
  have hlen : (setAll m r l).length = m.length := length_setAll hkeys
  refine ⟨hnd3, ?_, ?_⟩
  · intro p hp
    have hlk : lookupA (setAll m r l) p.1 = some p.2 :=
      (mem_iff_lookupA hnd3).mp (by rw [Prod.mk.eta]; exact hp)
    have hp1 : p.1 ∈ keys (setAll m r l) := by
      rw [← lookupA_isSome_iff]; simp [hlk]
    have hpar : parentOf (setAll m r l) p.1 = p.2 := by
      simp [parentOf, hlk]
    rw [parentOf_setAll hkeys p.1] at hpar
    by_cases hin : p.1 ∈ l
    · rw [if_pos hin] at hpar
      subst hpar
      rw [hkeq]
      have hx : x ∈ keys m := by
        by_contra hxm
        obtain ⟨n2, rfl⟩ : ∃ n2, n = n2 + 1 := by
          cases n with
          | zero => simp [trace] at h
          | succ n2 => exact ⟨n2, rfl⟩
        have h7 : trace (n2 + 1) m x = some ([], x) :=
          trace_root (parentOf_not_mem hxm)
        rw [h7] at h
        simp at h
        obtain ⟨hl7, hr7⟩ := h
        subst hl7
        simp at hin
      exact trace_root_mem hinv.2.1 h hx
    · rw [if_neg hin] at hpar
      rw [← hpar, hkeq]
      have hmem : p.1 ∈ keys m := by rwa [hkeq] at hp1
      exact hinv.2.1 _ (parentOf_mem hmem)
  · intro k hk
    have hkm : k ∈ keys m := by rwa [hkeq] at hk
    obtain ⟨⟨l2, r2⟩, htr2⟩ :=
      Option.isSome_iff_exists.mp (hinv.2.2 k hkm)
    obtain ⟨l3, htr3⟩ := setAll_trace h htr2
    simp [trace_bound hnd3 htr3]

/-- Path compression does not change any element's root. -/
theorem setAll_rootOf {n : Nat} {m : DS α} (hinv : Inv m) {x : α}
    {l : List α} {r : α} (h : trace n m x = some (l, r)) (z : α) :
    rootOf (setAll m r l) z = rootOf m z := by
  obtain ⟨l2, htr⟩ := rootOf_trace hinv z
  obtain ⟨l3, htr3⟩ := setAll_trace h htr
  have hnd3 : (keys (setAll m r l)).Nodup := by
    rw [keys_setAll (trace_keys h)]; exact hinv.1
  exact rootOf_eq_of_trace hnd3 htr3

/-! ### Characterizing `findAux` -/

theorem findAux_succ_mem {m : DS α} {x : α} (hx : x ∈ keys m) (fuel : Nat) :
    findAux (fuel + 1) m x =
      if x = parentOf m x then some (m, parentOf m x)
      else
        match findAux fuel m (parentOf m x) with
        | none => none
        | some (m2, r) => some (setKey m2 x r, r) := by
  rw [findAux, getViv_mem hx]

theorem findAux_new {m : DS α} {x : α} (hx : x ∉ keys m) (fuel : Nat) :
    findAux (fuel + 1) m x = some (m ++ [(x, x)], x) := by
  rw [findAux, getViv_new hx]
  simp

/-- On an existing key, `find` computes the walk's root and compresses
exactly the walk's nodes. -/
theorem findAux_spec {m : DS α} (hinv : Inv m) {x : α} (hx : x ∈ keys m)
    {n : Nat} {l : List α} {r : α} (h : trace n m x = some (l, r)) :
    ∀ fuel, l.length + 1 ≤ fuel → findAux fuel m x = some (setAll m r l, r) := by
  induction l generalizing x n with
  | nil =>
      obtain ⟨hr, hp⟩ := trace_nil_elim h
      intro fuel hf
      obtain ⟨f2, rfl⟩ : ∃ f2, fuel = f2 + 1 := ⟨fuel - 1, by omega⟩
      rw [findAux_succ_mem hx, if_pos hp.symm, hp]
      rw [hr, setAll]
  | cons w zs ih =>
      obtain ⟨hw, hp, k, hn, htr⟩ := trace_cons_elim h
      subst hw
      intro fuel hf
      obtain ⟨f2, rfl⟩ : ∃ f2, fuel = f2 + 1 := ⟨fuel - 1, by omega⟩
      have hpx := hinv.2.1 _ (parentOf_mem hx)
      have ihres := ih hpx htr f2 (by simpa using hf)
      rw [findAux_succ_mem hx, if_neg (fun he => hp he.symm), ihres]
      rfl

/-! ### Auto-vivification of a fresh element -/

theorem keys_viv (m : DS α) (x : α) : keys (m ++ [(x, x)]) = keys m ++ [x] := by
  simp [keys]

theorem viv_inv {m : DS α} (hinv : Inv m) {x : α} (hx : x ∉ keys m) :
    Inv (m ++ [(x, x)]) := by
  have hknd : (keys (m ++ [(x, x)])).Nodup := by
    rw [keys_viv]
    rw [List.nodup_append]
    refine ⟨hinv.1, List.nodup_singleton x, ?_⟩
    intro a ha hb
    simp at hb
    subst hb
    exact hx ha
  refine ⟨hknd, ?_, ?_⟩
  · intro p hp
    rw [keys_viv]
    rcases List.mem_append.mp hp with h1 | h1
    · exact List.mem_append_left _ (hinv.2.1 p h1)
    · simp at h1
      subst h1
      simp
  · intro k hk
    have hext := trace_ext (fun w => parentOf_viv hx w)
    rw [keys_viv] at hk
    rcases List.mem_append.mp hk with h1 | h1
    · obtain ⟨q, htr⟩ := Option.isSome_iff_exists.mp (hinv.2.2 k h1)
      have h2 : trace ((m ++ [(x, x)]).length + 1) m k = some q :=
        trace_mono htr (by simp)
      rw [← hext _ k] at h2
      simp only [List.length_append, List.length_singleton] at h2
      simp [h2]
    · simp at h1
      have hp : parentOf (m ++ [(x, x)]) x = x := by
        rw [parentOf_viv hx x]
        exact parentOf_not_mem hx
      rw [h1]
      simp [trace_root hp]

theorem viv_rootOf {m : DS α} (hinv : Inv m) {x : α} (hx : x ∉ keys m) (z : α) :
    rootOf (m ++ [(x, x)]) z = rootOf m z := by
  obtain ⟨l, htr⟩ := rootOf_trace hinv z
  have h2 : trace ((m ++ [(x, x)]).length + 1) m z = some (l, rootOf m z) :=
    trace_mono htr (by simp)
  rw [← trace_ext (fun w => parentOf_viv hx w)] at h2
  have hknd : (keys (m ++ [(x, x)])).Nodup := (viv_inv hinv hx).1
  exact rootOf_eq_of_trace hknd h2

/-! ### The packaged behaviour of `find` on invariant states -/

theorem find_good {m : DS α} (hinv : Inv m) (x : α) :
    ∃ m2, find m x = some (m2, rootOf m x) ∧ Inv m2 ∧
      (∀ z, rootOf m2 z = rootOf m z) ∧
      (∀ z, z ∈ keys m2 ↔ (z ∈ keys m ∨ z = x)) ∧
      (x ∈ keys m → keys m2 = keys m) := by
  by_cases hx : x ∈ keys m
  · obtain ⟨l, htr⟩ := rootOf_trace hinv x
    have hlen : l.length + 1 ≤ m.length + 1 := by
      have h8 := trace_len_le hinv.1 htr
      omega
    have hfind := findAux_spec hinv hx htr (m.length + 1) hlen
    have hke : keys (setAll m (rootOf m x) l) = keys m :=
      keys_setAll (trace_keys htr)
    refine ⟨setAll m (rootOf m x) l, hfind, setAll_inv hinv htr,
      setAll_rootOf hinv htr, ?_, fun _ => hke⟩
    intro z
    rw [hke]
    constructor
    · exact Or.inl
    · rintro (h | h)
      · exact h
      · subst h; exact hx
  · refine ⟨m ++ [(x, x)], ?_, viv_inv hinv hx, viv_rootOf hinv hx, ?_,
      fun hmem => absurd hmem hx⟩
    · rw [find, findAux_new hx, rootOf_not_mem hx]
    · intro z
      rw [keys_viv]
      simp [List.mem_append]

/-! ### Attaching one root under another (`union`) -/

theorem trace_attach {m : DS α} {rx ry : α} (hrx : parentOf m rx = rx)
    (hry : parentOf m ry = ry) (hne : rx ≠ ry) (hmem : rx ∈ keys m) :
    ∀ n z l r, trace n m z = some (l, r) →
      (r ≠ rx → trace n (setKey m rx ry) z = some (l, r)) ∧
      (r = rx → trace (n + 1) (setKey m rx ry) z = some (l ++ [rx], ry)) := by
  have hpar : ∀ w, parentOf (setKey m rx ry) w =
      if w = rx then ry else parentOf m w := by
    intro w
    by_cases hw : w = rx
    · subst hw; rw [parentOf_setKey_self _ hmem, if_pos rfl]
    · rw [parentOf_setKey_ne _ hw, if_neg hw]
  intro n
  induction n with
  | zero => intro z l r h; simp [trace] at h
  | succ k ih =>
      intro z l r h
      rw [trace] at h
      by_cases hp : parentOf m z = z
      · simp [hp] at h
        obtain ⟨hl, hr⟩ := h
        subst hl
        subst hr
        constructor
        · intro hrneq
          have hpz : parentOf (setKey m rx ry) z = z := by
            rw [hpar z, if_neg hrneq]; exact hp
          exact trace_root hpz
        · intro hreq
          rw [hreq]
          have hpz : parentOf (setKey m rx ry) rx = ry := by
            rw [hpar rx, if_pos rfl]
          have hpy : parentOf (setKey m rx ry) ry = ry := by
            rw [hpar ry, if_neg (Ne.symm hne)]; exact hry
          have hstep : parentOf (setKey m rx ry) rx ≠ rx := by
            rw [hpz]; exact Ne.symm hne
          simpa using trace_step hstep (by rw [hpz]; exact trace_root hpy)
      · rw [if_neg hp] at h
        cases htr : trace k m (parentOf m z) with
        | none => rw [htr] at h; simp at h
        | some q =>
            obtain ⟨l4, r4⟩ := q
            rw [htr] at h
            simp at h
            obtain ⟨hl, hr⟩ := h
            subst hr
            subst hl
            have hzne : z ≠ rx := by
              intro he
              rw [he] at hp
              exact hp hrx
            have hpz : parentOf (setKey m rx ry) z = parentOf m z := by
              rw [hpar z, if_neg hzne]
            obtain ⟨ih1, ih2⟩ := ih (parentOf m z) l4 r4 htr
            constructor
            · intro hrneq
              have hstep : parentOf (setKey m rx ry) z ≠ z := by
                rw [hpz]; exact hp
              exact trace_step hstep (by rw [hpz]; exact ih1 hrneq)
            · intro hreq
              have hstep : parentOf (setKey m rx ry) z ≠ z := by
                rw [hpz]; exact hp
              simpa using trace_step hstep (by rw [hpz]; exact ih2 hreq)

theorem attach_good {m : DS α} (hinv : Inv m) {rx ry : α}
    (hrx : parentOf m rx = rx) (hry : parentOf m ry = ry) (hne : rx ≠ ry)
    (hmemx : rx ∈ keys m) (hmemy : ry ∈ keys m) :
    Inv (setKey m rx ry) ∧
      (∀ z, rootOf (setKey m rx ry) z =
        if rootOf m z = rx then ry else rootOf m z) := by
  have hkeq : keys (setKey m rx ry) = keys m := keys_setKey _ hmemx
  have hnd3 : (keys (setKey m rx ry)).Nodup := by rw [hkeq]; exact hinv.1
  have hroots : ∀ z, trace ((setKey m rx ry).length + 1) (setKey m rx ry) z
      = some ((if rootOf m z = rx then
          (Classical.choose (rootOf_trace hinv z)) ++ [rx]
        else Classical.choose (rootOf_trace hinv z)),
        if rootOf m z = rx then ry else rootOf m z) := by
    intro z
    have htr := Classical.choose_spec (rootOf_trace hinv z)
    by_cases hcase : rootOf m z = rx
    · rw [if_pos hcase, if_pos hcase]
      have hb := (trace_attach hrx hry hne hmemx _ _ _ _ htr).2 hcase
      exact trace_bound hnd3 hb
    · rw [if_neg hcase, if_neg hcase]
      have hb := (trace_attach hrx hry hne hmemx _ _ _ _ htr).1 hcase
      exact trace_bound hnd3 hb
  refine ⟨⟨hnd3, ?_, ?_⟩, ?_⟩
  · intro p hp
    have hlk : lookupA (setKey m rx ry) p.1 = some p.2 :=
      (mem_iff_lookupA hnd3).mp (by rw [Prod.mk.eta]; exact hp)
    have hpeq : parentOf (setKey m rx ry) p.1 = p.2 := by
      simp [parentOf, hlk]
    rw [hkeq]
    by_cases hw : p.1 = rx
    · rw [hw, parentOf_setKey_self _ hmemx] at hpeq
      rw [← hpeq]
      exact hmemy
    · rw [parentOf_setKey_ne _ hw] at hpeq
      rw [← hpeq]
      have hp1 : p.1 ∈ keys m := by
        rw [← hkeq, ← lookupA_isSome_iff]
        simp [hlk]
      exact hinv.2.1 _ (parentOf_mem hp1)
  · intro k hk
    simp [hroots k]
  · intro z
    exact rootOf_eq_of_trace hnd3 (hroots z)

/-! ### The packaged behaviour of `union` and `connected` -/

theorem union_good {m : DS α} (hinv : Inv m) (x y : α) :
    ∃ m2, union m x y = some m2 ∧ Inv m2 ∧
      (∀ z, rootOf m2 z =
        if rootOf m z = rootOf m x then rootOf m y else rootOf m z) ∧
      (∀ z, z ∈ keys m2 ↔ (z ∈ keys m ∨ z = x ∨ z = y)) ∧
      (x ∈ keys m → y ∈ keys m → keys m2 = keys m) := by
  obtain ⟨m1, hf1, hinv1, hroots1, hmem1, hkeep1⟩ := find_good hinv x
  obtain ⟨m2, hf2, hinv2, hroots2, hmem2, hkeep2⟩ := find_good hinv1 y
  have hry : rootOf m1 y = rootOf m y := hroots1 y
  have hchain : ∀ z, rootOf m2 z = rootOf m z :=
    fun z => (hroots2 z).trans (hroots1 z)
  have hun : union m x y = some (if rootOf m x = rootOf m1 y then m2
      else setKey m2 (rootOf m x) (rootOf m1 y)) := by
    simp only [union, hf1, hf2]
  have hmm : ∀ z, z ∈ keys m2 ↔ (z ∈ keys m ∨ z = x ∨ z = y) := by
    intro z
    rw [hmem2 z, hmem1 z]
    tauto
  by_cases hcase : rootOf m x = rootOf m1 y
  · rw [if_pos hcase] at hun
    refine ⟨m2, hun, hinv2, ?_, hmm, ?_⟩
    · intro z
      by_cases hc2 : rootOf m z = rootOf m x
      · rw [if_pos hc2, hchain z, hc2, hcase, hry]
      · rw [if_neg hc2, hchain z]
    · intro hx hy
      have hy1 : y ∈ keys m1 := (hmem1 y).mpr (Or.inl hy)
      rw [hkeep2 hy1, hkeep1 hx]
  · rw [if_neg hcase] at hun
    have hrx : parentOf m2 (rootOf m x) = rootOf m x := by
      have h8 := parentOf_rootOf hinv2 x
      rwa [hchain x] at h8
    have hry2 : parentOf m2 (rootOf m1 y) = rootOf m1 y := by
      have h8 := parentOf_rootOf hinv2 y
      rwa [hroots2 y] at h8
    have hxk : x ∈ keys m2 := (hmm x).mpr (Or.inr (Or.inl rfl))
    have hyk : y ∈ keys m2 := (hmm y).mpr (Or.inr (Or.inr rfl))
    have hmemx : rootOf m x ∈ keys m2 := by
      have h8 := rootOf_mem hinv2 hxk
      rwa [hchain x] at h8
    have hmemy : rootOf m1 y ∈ keys m2 := by
      have h8 := rootOf_mem hinv2 hyk
      rwa [hroots2 y] at h8
    obtain ⟨hinv3, hroots3⟩ := attach_good hinv2 hrx hry2 hcase hmemx hmemy
    have hke3 : keys (setKey m2 (rootOf m x) (rootOf m1 y)) = keys m2 :=
      keys_setKey _ hmemx
    refine ⟨setKey m2 (rootOf m x) (rootOf m1 y), hun, hinv3, ?_, ?_, ?_⟩
    · intro z
      rw [hroots3 z, hchain z, hry]
    · intro z
      rw [← hmm z, hke3]
    · intro hx hy
      have hy1 : y ∈ keys m1 := (hmem1 y).mpr (Or.inl hy)
      rw [hke3, hkeep2 hy1, hkeep1 hx]

theorem connected_good {m : DS α} (hinv : Inv m) (x y : α) :
    ∃ m2, connected m x y = some (m2, decide (rootOf m x = rootOf m y)) ∧
      Inv m2 ∧ (∀ z, rootOf m2 z = rootOf m z) ∧
      (∀ z, z ∈ keys m2 ↔ (z ∈ keys m ∨ z = x ∨ z = y)) := by
  obtain ⟨m1, hf1, hinv1, hroots1, hmem1, hkeep1⟩ := find_good hinv x
  obtain ⟨m2, hf2, hinv2, hroots2, hmem2, hkeep2⟩ := find_good hinv1 y
  have hchain : ∀ z, rootOf m2 z = rootOf m z :=
    fun z => (hroots2 z).trans (hroots1 z)
  refine ⟨m2, ?_, hinv2, hchain, ?_⟩
  · simp only [connected, hf1, hf2, hroots1 y]
  · intro z
    rw [hmem2 z, hmem1 z]
    tauto

/-! ### Arbitrary operation sequences never split a class -/

theorem runOp_good {m : DS α} (hinv : Inv m) (o : Op α) :
    ∃ m2, runOp m o = some m2 ∧ Inv m2 ∧
      (∀ a b, rootOf m a = rootOf m b → rootOf m2 a = rootOf m2 b) := by
  cases o with
  | findOp x =>
      obtain ⟨m2, hf, hinv2, hroots, _, _⟩ := find_good hinv x
      refine ⟨m2, ?_, hinv2, ?_⟩
      · simp only [runOp, hf]
      · intro a b h
        rw [hroots a, hroots b]
        exact h
  | unionOp x y =>
      obtain ⟨m2, hu, hinv2, hroots, _, _⟩ := union_good hinv x y
      refine ⟨m2, hu, hinv2, ?_⟩
      intro a b h
      rw [hroots a, hroots b, h]
  | connectedOp x y =>
      obtain ⟨m2, hc, hinv2, hroots, _⟩ := connected_good hinv x y
      refine ⟨m2, ?_, hinv2, ?_⟩
      · simp only [runOp, hc]
      · intro a b h
        rw [hroots a, hroots b]
        exact h

theorem runOps_good {m : DS α} (hinv : Inv m) (ops : List (Op α)) :
    ∃ m2, runOps m ops = some m2 ∧ Inv m2 ∧
      (∀ a b, rootOf m a = rootOf m b → rootOf m2 a = rootOf m2 b) := by
  induction ops generalizing m with
  | nil => exact ⟨m, rfl, hinv, fun a b h => h⟩
  | cons o os ih =>
      obtain ⟨m1, h1, hinv1, hpres1⟩ := runOp_good hinv o
      obtain ⟨m2, h2, hinv2, hpres2⟩ := ih hinv1
      refine ⟨m2, ?_, hinv2, fun a b h => hpres2 a b (hpres1 a b h)⟩
      simp only [runOps, h1]
      exact h2

/-! ### Enumeration: `__iter__` and `itersets` -/

theorem iterAux_good {m0 : DS α} :
    ∀ (es : List α) (m : DS α), Inv m → keys m = keys m0 →
      (∀ z, rootOf m z = rootOf m0 z) → (∀ e ∈ es, e ∈ keys m0) →
      ∃ m2 prs, iterAux m es = some (m2, prs) ∧ Inv m2 ∧ keys m2 = keys m0 ∧
        (∀ z, rootOf m2 z = rootOf m0 z) ∧
        prs.map Prod.fst = es ∧ (∀ p ∈ prs, p.2 = rootOf m0 p.1) := by
  intro es
  induction es with
  | nil =>
      intro m hinv hkeys hroots _
      exact ⟨m, [], rfl, hinv, hkeys, hroots, rfl, by simp⟩
  | cons e es2 ih =>
      intro m hinv hkeys hroots hes
      obtain ⟨m1, hf, hinv1, hroots1, hmem1, hkeep1⟩ := find_good hinv e
      have hek : e ∈ keys m := by
        rw [hkeys]; exact hes e (List.mem_cons_self e es2)
      have hkeys1 : keys m1 = keys m0 := by rw [hkeep1 hek, hkeys]
      have hroots1c : ∀ z, rootOf m1 z = rootOf m0 z :=
        fun z => (hroots1 z).trans (hroots z)
      obtain ⟨m2, prs, hrec, hinv2, hkeys2, hroots2, hfst, hsnd⟩ :=
        ih m1 hinv1 hkeys1 hroots1c
          (fun a ha => hes a (List.mem_cons_of_mem e ha))
      refine ⟨m2, (e, rootOf m e) :: prs, ?_, hinv2, hkeys2, hroots2, ?_, ?_⟩
      · simp only [iterAux, hf, hrec]
      · simp [hfst]
      · intro p hp
        rcases List.mem_cons.mp hp with h1 | h1
        · subst h1
          simp [hroots e]
        · exact hsnd p h1

theorem iterate_good {m : DS α} (hinv : Inv m) :
    ∃ m2 prs, iterate m = some (m2, prs) ∧ Inv m2 ∧ keys m2 = keys m ∧
      (∀ z, rootOf m2 z = rootOf m z) ∧
      prs.map Prod.fst = keys m ∧ (∀ p ∈ prs, p.2 = rootOf m p.1) :=
  iterAux_good (keys m) m hinv rfl (fun _ => rfl) (fun _ he => he)

theorem addToClass_pred {Q : α → α → Prop} {cs : List (α × List α)} {r e : α}
    (hcs : ∀ p ∈ cs, ∀ a ∈ p.2, Q p.1 a) (he : Q r e) :
    ∀ p ∈ addToClass cs r e, ∀ a ∈ p.2, Q p.1 a := by
  induction cs with
  | nil =>
      intro p hp a ha
      simp [addToClass] at hp
      subst hp
      simp at ha
      subst ha
      exact he
  | cons q rest ih =>
      obtain ⟨r3, es3⟩ := q
      by_cases h3 : r3 = r
      · subst h3
        intro p hp a ha
        rw [addToClass, if_pos rfl] at hp
        rcases List.mem_cons.mp hp with h1 | h1
        · subst h1
          simp at ha
          rcases ha with ha | ha
          · exact hcs (r3, es3) (List.mem_cons_self _ _) a ha
          · subst ha; exact he
        · exact hcs p (List.mem_cons_of_mem _ h1) a ha
      · intro p hp a ha
        rw [addToClass, if_neg h3] at hp
        rcases List.mem_cons.mp hp with h1 | h1
        · subst h1
          exact hcs (r3, es3) (List.mem_cons_self _ _) a ha
        · exact ih (fun q hq => hcs q (List.mem_cons_of_mem _ hq)) p h1 a ha

theorem addToClass_elems (cs : List (α × List α)) (r e a : α) :
    (∃ p ∈ addToClass cs r e, a ∈ p.2) ↔ (∃ p ∈ cs, a ∈ p.2) ∨ a = e := by
  induction cs with
  | nil =>
      simp [addToClass]
  | cons q rest ih =>
      obtain ⟨r3, es3⟩ := q
      by_cases h3 : r3 = r
      · subst h3
        rw [addToClass, if_pos rfl]
        simp only [List.mem_cons]
        constructor
        · rintro ⟨p, hp | hp, ha⟩
          · subst hp
            simp at ha
            rcases ha with ha | ha
            · exact Or.inl ⟨(r3, es3), Or.inl rfl, ha⟩
            · exact Or.inr ha
          · exact Or.inl ⟨p, Or.inr hp, ha⟩
        · rintro (⟨p, hp | hp, ha⟩ | haa)
          · subst hp
            exact ⟨(r3, es3 ++ [e]), Or.inl rfl, by simp [ha]⟩
          · exact ⟨p, Or.inr hp, ha⟩
          · exact ⟨(r3, es3 ++ [e]), Or.inl rfl, by simp [haa]⟩
      · rw [addToClass, if_neg h3]
        simp only [List.mem_cons]
        constructor
        · rintro ⟨p, hp | hp, ha⟩
          · subst hp
            exact Or.inl ⟨(r3, es3), Or.inl rfl, ha⟩
          · rcases (ih).mp ⟨p, hp, ha⟩ with h4 | h4
            · obtain ⟨q, hq, hqa⟩ := h4
              exact Or.inl ⟨q, Or.inr hq, hqa⟩
            · exact Or.inr h4
        · rintro (⟨p, hp | hp, ha⟩ | haa)
          · subst hp
            exact ⟨(r3, es3), Or.inl rfl, ha⟩
          · obtain ⟨q, hq, hqa⟩ := (ih).mpr (Or.inl ⟨p, hp, ha⟩)
            exact ⟨q, Or.inr hq, hqa⟩
          · obtain ⟨q, hq, hqa⟩ := (ih).mpr (Or.inr haa)
            exact ⟨q, Or.inr hq, hqa⟩

theorem addToClass_tags (cs : List (α × List α)) (r e : α) :
    (addToClass cs r e).map Prod.fst =
      if r ∈ cs.map Prod.fst then cs.map Prod.fst
      else cs.map Prod.fst ++ [r] := by
  induction cs with
  | nil => simp [addToClass]
  | cons q rest ih =>
      obtain ⟨r3, es3⟩ := q
      by_cases h3 : r3 = r
      · subst h3
        rw [addToClass, if_pos rfl]
        simp
      · rw [addToClass, if_neg h3]
        by_cases h4 : r ∈ rest.map Prod.fst
        · simp [h4, ih, Ne.symm h3]
        · simp [h4, ih, Ne.symm h3]

theorem addToClass_tags_nodup {cs : List (α × List α)} {r e : α}
    (h : (cs.map Prod.fst).Nodup) : ((addToClass cs r e).map Prod.fst).Nodup := by
  rw [addToClass_tags]
  by_cases h4 : r ∈ cs.map Prod.fst
  · rwa [if_pos h4]
  · rw [if_neg h4, List.nodup_append]
    refine ⟨h, List.nodup_singleton r, ?_⟩
    intro a ha hb
    simp at hb
    subst hb
    exact h4 ha

theorem itersetsAux_good {m0 : DS α} :
    ∀ (es : List α) (m : DS α) (cs : List (α × List α)), Inv m →
      keys m = keys m0 → (∀ z, rootOf m z = rootOf m0 z) →
      (∀ e ∈ es, e ∈ keys m0) →
      (∀ p ∈ cs, ∀ a ∈ p.2, rootOf m0 a = p.1) →
      ((cs.map Prod.fst).Nodup) →
      ∃ m2 cs2, itersetsAux m es cs = some (m2, cs2) ∧ Inv m2 ∧
        keys m2 = keys m0 ∧ (∀ z, rootOf m2 z = rootOf m0 z) ∧
        (∀ p ∈ cs2, ∀ a ∈ p.2, rootOf m0 a = p.1) ∧
        ((cs2.map Prod.fst).Nodup) ∧
        (∀ a, (∃ p ∈ cs2, a ∈ p.2) ↔ ((∃ p ∈ cs, a ∈ p.2) ∨ a ∈ es)) := by
  intro es
  induction es with
  | nil =>
      intro m cs hinv hkeys hroots _ hcs hnd
      exact ⟨m, cs, rfl, hinv, hkeys, hroots, hcs, hnd, by simp⟩
  | cons e es2 ih =>
      intro m cs hinv hkeys hroots hes hcs hnd
      obtain ⟨m1, hf, hinv1, hroots1, hmem1, hkeep1⟩ := find_good hinv e
      have hek : e ∈ keys m := by
        rw [hkeys]; exact hes e (List.mem_cons_self e es2)
      have hkeys1 : keys m1 = keys m0 := by rw [hkeep1 hek, hkeys]
      have hroots1c : ∀ z, rootOf m1 z = rootOf m0 z :=
        fun z => (hroots1 z).trans (hroots z)
      have hre : rootOf m e = rootOf m0 e := hroots e
      obtain ⟨m2, cs2, hrec, hinv2, hkeys2, hroots2, hcs2, hnd2, helems⟩ :=
        ih m1 (addToClass cs (rootOf m e) e) hinv1 hkeys1 hroots1c
          (fun a ha => hes a (List.mem_cons_of_mem e ha))
          (addToClass_pred (Q := fun t a => rootOf m0 a = t) hcs hre.symm)
          (addToClass_tags_nodup hnd)
      refine ⟨m2, cs2, ?_, hinv2, hkeys2, hroots2, hcs2, hnd2, ?_⟩
      · simp only [itersetsAux, hf]
        exact hrec
      · intro a
        rw [helems a, addToClass_elems]
        simp only [List.mem_cons]
        exact or_assoc

theorem itersets_good {m : DS α} (hinv : Inv m) :
    ∃ m2 sets, itersets m = some (m2, sets) ∧ Inv m2 ∧ keys m2 = keys m ∧
      (∀ z, rootOf m2 z = rootOf m z) ∧
      (∀ a, (∃ s ∈ sets, a ∈ s) ↔ a ∈ keys m) ∧
      sets.Pairwise (fun s t => ∀ a, a ∈ s → a ∉ t) := by
  obtain ⟨m2, cs2, hrec, hinv2, hkeys2, hroots2, hcs2, hnd2, helems⟩ :=
    itersetsAux_good (keys m) m [] hinv rfl (fun _ => rfl) (fun _ he => he)
      (by simp) (by simp)
  refine ⟨m2, cs2.map Prod.snd, ?_, hinv2, hkeys2, hroots2, ?_, ?_⟩
  · rw [itersets, hrec]
  · intro a
    constructor
    · rintro ⟨s, hs, has⟩
      obtain ⟨p, hp, hps⟩ := List.mem_map.mp hs
      have h9 : ∃ p ∈ cs2, a ∈ p.2 := ⟨p, hp, by rw [hps]; exact has⟩
      rcases (helems a).mp h9 with h10 | h10
      · obtain ⟨q, hq, _⟩ := h10
        simp at hq
      · exact h10
    · intro ha
      obtain ⟨p, hp, hap⟩ := (helems a).mpr (Or.inr ha)
      exact ⟨p.2, List.mem_map_of_mem Prod.snd hp, hap⟩
  · rw [List.pairwise_map]
    have hpw : cs2.Pairwise (fun p q => p.1 ≠ q.1) := by
      have h5 := hnd2
      rw [List.Nodup, List.pairwise_map] at h5
      exact h5
    refine hpw.imp_of_mem ?_
    intro p q hp hq hne a hap haq
    have h6 : rootOf m a = p.1 := hcs2 p hp a hap
    have h7 : rootOf m a = q.1 := hcs2 q hq a haq
    exact hne (h6.symm.trans h7)

/-! ### The claims -/

/-- C1: on any state satisfying the representation invariant, after
`union(x, y)` succeeds, `connected(x, y)` returns `True`, and it keeps
returning `True` after any subsequent sequence of `union`, `find` and
`connected` calls on arbitrary elements. -/
theorem union_connected_persistent {m : DS α} (hinv : Inv m) (x y : α)
    {m1 : DS α} (hu : union m x y = some m1) :
    (∃ m2, connected m1 x y = some (m2, true)) ∧
    (∀ ops : List (Op α), ∀ m2, runOps m1 ops = some m2 →
      ∃ m3, connected m2 x y = some (m3, true)) := by
  obtain ⟨m1u, hu2, hinv1, hroots1, _, _⟩ := union_good hinv x y
  rw [hu] at hu2
  have he : m1 = m1u := Option.some_inj.mp hu2
  subst he
  have hsame : rootOf m1 x = rootOf m1 y := by
    rw [hroots1 x, hroots1 y, if_pos rfl]
    by_cases hc : rootOf m y = rootOf m x
    · rw [if_pos hc, hc]
    · rw [if_neg hc]
  constructor
  · obtain ⟨m2, hc2, _, _, _⟩ := connected_good hinv1 x y
    exact ⟨m2, by rw [hc2]; simp [hsame]⟩
  · intro ops m2 hops
    obtain ⟨m2g, hops2, hinv2, hpres⟩ := runOps_good hinv1 ops
    rw [hops] at hops2
    have he2 : m2 = m2g := Option.some_inj.mp hops2
    subst he2
    have hsame2 : rootOf m2 x = rootOf m2 y := hpres x y hsame
    obtain ⟨m3, hc3, _, _, _⟩ := connected_good hinv2 x y
    exact ⟨m3, by rw [hc3]; simp [hsame2]⟩

theorem union_connected_persistent_witness :
    (∃ m2, connected [(1, 2), (2, 2)] 1 2 = some (m2, true)) ∧
    (∀ ops : List (Op Nat), ∀ m2, runOps [(1, 2), (2, 2)] ops = some m2 →
      ∃ m3, connected m2 1 2 = some (m3, true)) :=
  union_connected_persistent (m := ([] : DS Nat)) (by decide) 1 2 (by decide)

/-- C2: `union` is asymmetric in favour of the second argument: when the
two `find` calls return distinct roots `rx ≠ ry`, `union(x, y)` sets the
parent of `rx` (x's root) to `ry` (y's root), so the surviving
representative of the merged class is y's old root — concretely, on a
fresh structure `union(1, 2)` makes `find(1)` return `2`. -/
theorem union_asymmetric {m : DS α} (hinv : Inv m) (x y : α)
    {m1 m2 : DS α} {rx ry : α} (hfx : find m x = some (m1, rx))
    (hfy : find m1 y = some (m2, ry)) (hne : rx ≠ ry) :
    union m x y = some (setKey m2 rx ry) ∧
    parentOf (setKey m2 rx ry) rx = ry ∧
    rootOf (setKey m2 rx ry) x = ry ∧
    (∃ m4, find (setKey m2 rx ry) x = some (m4, ry)) := by
  obtain ⟨m1g, hf1, hinv1, hroots1, hmem1, _⟩ := find_good hinv x
  rw [hfx] at hf1
  have h1 := Option.some_inj.mp hf1
  have h1a : m1 = m1g := congrArg Prod.fst h1
  have h1b : rx = rootOf m x := congrArg Prod.snd h1
  subst h1a
  obtain ⟨m2g, hf2, hinv2, hroots2, hmem2, _⟩ := find_good hinv1 y
  rw [hfy] at hf2
  have h2 := Option.some_inj.mp hf2
  have h2a : m2 = m2g := congrArg Prod.fst h2
  have h2b : ry = rootOf m1 y := congrArg Prod.snd h2
  subst h2a
  have hun : union m x y = some (setKey m2 rx ry) := by
    simp only [union, hfx, hfy]
    rw [if_neg hne]
  obtain ⟨m3g, hu3, hinv3, hroots3, _, _⟩ := union_good hinv x y
  rw [hun] at hu3
  have h3 : setKey m2 rx ry = m3g := Option.some_inj.mp hu3
  have hxk2 : x ∈ keys m2 :=
    (hmem2 x).mpr (Or.inl ((hmem1 x).mpr (Or.inr rfl)))
  have hrxk : rx ∈ keys m2 := by
    have h4 := rootOf_mem hinv2 hxk2
    rwa [hroots2 x, hroots1 x, ← h1b] at h4
  have hryy : ry = rootOf m y := by rw [h2b, hroots1 y]
  have hrfin : rootOf (setKey m2 rx ry) x = ry := by
    rw [h3, hroots3 x, if_pos rfl, hryy]
  refine ⟨hun, parentOf_setKey_self _ hrxk, hrfin, ?_⟩
  rw [h3] at hrfin ⊢
  obtain ⟨m4, hf4, _, _, _, _⟩ := find_good hinv3 x
  rw [hrfin] at hf4
  exact ⟨m4, hf4⟩

theorem union_asymmetric_witness :
    union ([] : DS Nat) 1 2 = some (setKey [(1, 1), (2, 2)] 1 2) ∧
    parentOf (setKey [(1, 1), (2, 2)] 1 2) 1 = 2 ∧
    rootOf (setKey [(1, 1), (2, 2)] 1 2) 1 = 2 ∧
    (∃ m4, find (setKey [(1, 1), (2, 2)] 1 2) 1 = some (m4, 2)) :=
  union_asymmetric (m := ([] : DS Nat)) (by decide) 1 2
    (show find ([] : DS Nat) 1 = some ([(1, 1)], 1) by decide)
    (show find ([(1, 1)] : DS Nat) 2 = some ([(1, 1), (2, 2)], 2) by decide)
    (by decide)

/-- C3: the representation invariant `Inv` — unique keys, stored parents
are themselves keys, and following parent links from any key terminates
at a root (no cycles other than root self-loops) — is preserved by
`find`, `union`, `connected`, `iterate` and `itersets`. -/
theorem inv_preserved {m : DS α} (hinv : Inv m) (x y : α) :
    (∀ m2 r, find m x = some (m2, r) → Inv m2) ∧
    (∀ m2, union m x y = some m2 → Inv m2) ∧
    (∀ m2 b, connected m x y = some (m2, b) → Inv m2) ∧
    (∀ m2 prs, iterate m = some (m2, prs) → Inv m2) ∧
    (∀ m2 sets, itersets m = some (m2, sets) → Inv m2) := by
  refine ⟨?_, ?_, ?_, ?_, ?_⟩
  · intro m2 r h
    obtain ⟨m2g, hf, hinv2, _, _, _⟩ := find_good hinv x
    rw [h] at hf
    have h2 : m2 = m2g := congrArg Prod.fst (Option.some_inj.mp hf)
    rw [h2]
    exact hinv2
  · intro m2 h
    obtain ⟨m2g, hu, hinv2, _, _, _⟩ := union_good hinv x y
    rw [h] at hu
    have h2 : m2 = m2g := Option.some_inj.mp hu
    rw [h2]
    exact hinv2
  · intro m2 b h
    obtain ⟨m2g, hc, hinv2, _, _⟩ := connected_good hinv x y
    rw [h] at hc
    have h2 : m2 = m2g := congrArg Prod.fst (Option.some_inj.mp hc)
    rw [h2]
    exact hinv2
  · intro m2 prs h
    obtain ⟨m2g, prsg, hg, hinv2, _, _, _, _⟩ := iterate_good hinv
    rw [h] at hg
    have h2 : m2 = m2g := congrArg Prod.fst (Option.some_inj.mp hg)
    rw [h2]
    exact hinv2
  · intro m2 sets h
    obtain ⟨m2g, setsg, hg, hinv2, _, _, _, _⟩ := itersets_good hinv
    rw [h] at hg
    have h2 : m2 = m2g := congrArg Prod.fst (Option.some_inj.mp hg)
    rw [h2]
    exact hinv2

theorem inv_preserved_witness :
    (∀ m2 r, find [(1, 2), (2, 2)] 1 = some (m2, r) → Inv m2) ∧
    (∀ m2, union [(1, 2), (2, 2)] 1 3 = some m2 → Inv m2) ∧
    (∀ m2 b, connected [(1, 2), (2, 2)] 1 3 = some (m2, b) → Inv m2) ∧
    (∀ m2 prs, iterate [(1, 2), (2, 2)] = some (m2, prs) → Inv m2) ∧
    (∀ m2 sets, itersets [(1, 2), (2, 2)] = some (m2, sets) → Inv m2) :=
  inv_preserved (m := ([(1, 2), (2, 2)] : DS Nat)) (by decide) 1 3

/-- C4: the sets yielded by `itersets` are pairwise disjoint and their
union is exactly the key set of the parent map (all elements ever
referenced). -/
theorem itersets_partition {m : DS α} (hinv : Inv m) {m2 : DS α}
    {sets : List (List α)} (h : itersets m = some (m2, sets)) :
    (∀ a, (∃ s ∈ sets, a ∈ s) ↔ a ∈ keys m) ∧
    sets.Pairwise (fun s t => ∀ a, a ∈ s → a ∉ t) := by
  obtain ⟨m2g, setsg, hg, _, _, _, helems, hpw⟩ := itersets_good hinv
  rw [h] at hg
  have h2 : sets = setsg := congrArg Prod.snd (Option.some_inj.mp hg)
  rw [h2]
  exact ⟨helems, hpw⟩

theorem itersets_partition_witness :
    (∀ a, (∃ s ∈ ([[1, 2], [3]] : List (List Nat)), a ∈ s) ↔
      a ∈ keys ([(1, 2), (2, 2), (3, 3)] : DS Nat)) ∧
    ([[1, 2], [3]] : List (List Nat)).Pairwise
      (fun s t => ∀ a, a ∈ s → a ∉ t) :=
  itersets_partition (m := ([(1, 2), (2, 2), (3, 3)] : DS Nat)) (by decide)
    (show itersets ([(1, 2), (2, 2), (3, 3)] : DS Nat) =
      some ([(1, 2), (2, 2), (3, 3)], [[1, 2], [3]]) by decide)

/-- C5: `find(x)` performs full path compression: when the parent walk
from `x` in the pre-state is `l` ending at root `r`, `find` returns `r`
(the pre-state root of `x`, a root of the result), the resulting map is
exactly the pre-state with every visited node's parent rewritten to `r`,
and no other parent is touched. -/
theorem find_path_compression {m : DS α} (hinv : Inv m) {x : α}
    (hx : x ∈ keys m) {n : Nat} {l : List α} {r : α}
    (htr : trace n m x = some (l, r)) :
    find m x = some (setAll m r l, r) ∧ parentOf (setAll m r l) r = r ∧
    r = rootOf m x ∧ (∀ z ∈ l, parentOf (setAll m r l) z = r) ∧
    (∀ z, z ∉ l → parentOf (setAll m r l) z = parentOf m z) := by
  have hfind := findAux_spec hinv hx htr (m.length + 1)
    (by have h5 := trace_len_le hinv.1 htr; omega)
  have hkeys := trace_keys htr
  have hpar := parentOf_setAll (r := r) hkeys
  have hrr : parentOf m r = r := trace_root_parent htr
  have hrnl : r ∉ l := fun hm => trace_mem_not_root htr hm hrr
  refine ⟨hfind, ?_, (rootOf_eq_of_trace hinv.1 htr).symm, ?_, ?_⟩
  · rw [hpar r, if_neg hrnl]; exact hrr
  · intro z hz; rw [hpar z, if_pos hz]
  · intro z hz; rw [hpar z, if_neg hz]

theorem find_path_compression_witness :
    find [(1, 2), (2, 3), (3, 3)] 1 =
      some (setAll [(1, 2), (2, 3), (3, 3)] 3 [1, 2], 3) ∧
    parentOf (setAll [(1, 2), (2, 3), (3, 3)] 3 [1, 2]) 3 = 3 ∧
    3 = rootOf ([(1, 2), (2, 3), (3, 3)] : DS Nat) 1 ∧
    (∀ z ∈ [1, 2], parentOf (setAll [(1, 2), (2, 3), (3, 3)] 3 [1, 2]) z = 3) ∧
    (∀ z, z ∉ [1, 2] →
      parentOf (setAll [(1, 2), (2, 3), (3, 3)] 3 [1, 2]) z =
        parentOf [(1, 2), (2, 3), (3, 3)] z) :=
  find_path_compression (m := ([(1, 2), (2, 3), (3, 3)] : DS Nat))
    (by decide) (by decide) (n := 4) (by decide)

/-- C6: on every state satisfying the representation invariant (parent
chains acyclic apart from root self-loops), `find(x)` terminates for
every `x`: the fuel `m.length + 1` used by the embedding never runs out,
so `find` returns a result instead of the divergence marker `none`. -/
theorem find_terminates {m : DS α} (hinv : Inv m) (x : α) :
    ∃ p, find m x = some p := by
  obtain ⟨m2, hf, _, _, _, _⟩ := find_good hinv x
  exact ⟨(m2, rootOf m x), hf⟩

theorem find_terminates_witness :
    ∃ p, find ([(1, 2), (2, 3), (3, 3)] : DS Nat) 2 = some p :=
  find_terminates (m := ([(1, 2), (2, 3), (3, 3)] : DS Nat)) (by decide) 2

/-- C7: `connected` is symmetric: evaluated from the same state,
`connected(x, y)` and `connected(y, x)` return the same boolean. -/
theorem connected_symmetric {m : DS α} (hinv : Inv m) (x y : α)
    {m1 m2 : DS α} {b1 b2 : Bool} (h1 : connected m x y = some (m1, b1))
    (h2 : connected m y x = some (m2, b2)) : b1 = b2 := by
  obtain ⟨m1g, hc1, _, _, _⟩ := connected_good hinv x y
  obtain ⟨m2g, hc2, _, _, _⟩ := connected_good hinv y x
  rw [h1] at hc1
  rw [h2] at hc2
  have hb1 : b1 = decide (rootOf m x = rootOf m y) :=
    congrArg Prod.snd (Option.some_inj.mp hc1)
  have hb2 : b2 = decide (rootOf m y = rootOf m x) :=
    congrArg Prod.snd (Option.some_inj.mp hc2)
  rw [hb1, hb2, decide_eq_decide]
  exact eq_comm

theorem connected_symmetric_witness : (false : Bool) = false :=
  connected_symmetric (m := ([] : DS Nat)) (by decide) 1 2
    (show connected ([] : DS Nat) 1 2 = some ([(1, 1), (2, 2)], false)
      by decide)
    (show connected ([] : DS Nat) 2 1 = some ([(2, 2), (1, 1)], false)
      by decide)

/-- C8: `union` is idempotent: calling `union(x, y)` a second time right
after the first yields the same partition — the key set and every
element's root are unchanged from the state after the first call. -/
theorem union_idempotent {m : DS α} (hinv : Inv m) (x y : α)
    {m1 : DS α} (h1 : union m x y = some m1) :
    ∃ m2, union m1 x y = some m2 ∧ keys m2 = keys m1 ∧
      (∀ a, rootOf m2 a = rootOf m1 a) := by
  obtain ⟨m1g, hu1, hinv1, hroots1, hmem1, _⟩ := union_good hinv x y
  rw [h1] at hu1
  have he : m1 = m1g := Option.some_inj.mp hu1
  subst he
  obtain ⟨m2, hu2, hinv2, hroots2, hmem2, hkeep2⟩ := union_good hinv1 x y
  have hxy1 : rootOf m1 x = rootOf m1 y := by
    rw [hroots1 x, hroots1 y, if_pos rfl]
    by_cases hc : rootOf m y = rootOf m x
    · rw [if_pos hc, hc]
    · rw [if_neg hc]
  have hxk : x ∈ keys m1 := (hmem1 x).mpr (Or.inr (Or.inl rfl))
  have hyk : y ∈ keys m1 := (hmem1 y).mpr (Or.inr (Or.inr rfl))
  refine ⟨m2, hu2, hkeep2 hxk hyk, ?_⟩
  intro a
  rw [hroots2 a]
  by_cases hc : rootOf m1 a = rootOf m1 x
  · rw [if_pos hc, hc, hxy1]
  · rw [if_neg hc]

theorem union_idempotent_witness :
    ∃ m2, union [(1, 2), (2, 2)] 1 2 = some m2 ∧
      keys m2 = keys ([(1, 2), (2, 2)] : DS Nat) ∧
      (∀ a, rootOf m2 a = rootOf ([(1, 2), (2, 2)] : DS Nat) a) :=
  union_idempotent (m := ([] : DS Nat)) (by decide) 1 2 (by decide)

/-- C9: the membership test (`__contains__`) has no side effect and does
not auto-vivify: it leaves the state unchanged and answers true exactly
when the element is a key of the parent map; on the empty structure
`bool(ds)` is `False` (i.e. `isEmpty()` is `True`) and `contains`
answers `False` for every element. -/
theorem contains_pure (m : DS α) (x : α) :
    (containsOp m x).1 = m ∧ ((containsOp m x).2 = true ↔ x ∈ keys m) ∧
    dsBool ([] : DS α) = false ∧ hasElem ([] : DS α) x = false := by
  refine ⟨rfl, ?_, rfl, rfl⟩
  simp only [containsOp, hasElem]
  exact lookupA_isSome_iff m x

/-- C10: `find` on an element that is already a key never adds or
removes keys — it only rewrites parent values — so the enumerations
`__iter__` and `itersets`, which call `find` on each key, leave the key
set exactly as it was. -/
theorem find_frame_keys {m : DS α} (hinv : Inv m) :
    (∀ x, x ∈ keys m → ∀ m2 r, find m x = some (m2, r) → keys m2 = keys m) ∧
    (∀ m2 prs, iterate m = some (m2, prs) → keys m2 = keys m) ∧
    (∀ m2 sets, itersets m = some (m2, sets) → keys m2 = keys m) := by
  refine ⟨?_, ?_, ?_⟩
  · intro x hx m2 r h
    obtain ⟨m2g, hf, _, _, _, hkeep⟩ := find_good hinv x
    rw [h] at hf
    have h2 : m2 = m2g := congrArg Prod.fst (Option.some_inj.mp hf)
    rw [h2]
    exact hkeep hx
  · intro m2 prs h
    obtain ⟨m2g, prsg, hg, _, hkeys, _, _, _⟩ := iterate_good hinv
    rw [h] at hg
    have h2 : m2 = m2g := congrArg Prod.fst (Option.some_inj.mp hg)
    rw [h2]
    exact hkeys
  · intro m2 sets h
    obtain ⟨m2g, setsg, hg, _, hkeys, _, _, _⟩ := itersets_good hinv
    rw [h] at hg
    have h2 : m2 = m2g := congrArg Prod.fst (Option.some_inj.mp hg)
    rw [h2]
    exact hkeys

theorem find_frame_keys_witness :
    (∀ x, x ∈ keys ([(1, 2), (2, 3), (3, 3)] : DS Nat) →
      ∀ m2 r, find [(1, 2), (2, 3), (3, 3)] x = some (m2, r) →
        keys m2 = keys ([(1, 2), (2, 3), (3, 3)] : DS Nat)) ∧
    (∀ m2 prs, iterate [(1, 2), (2, 3), (3, 3)] = some (m2, prs) →
      keys m2 = keys ([(1, 2), (2, 3), (3, 3)] : DS Nat)) ∧
    (∀ m2 sets, itersets [(1, 2), (2, 3), (3, 3)] = some (m2, sets) →
      keys m2 = keys ([(1, 2), (2, 3), (3, 3)] : DS Nat)) :=
  find_frame_keys (m := ([(1, 2), (2, 3), (3, 3)] : DS Nat)) (by decide)

end DisjointSetSpec
